import Mathlib

/-!
Verification of go-fiber-boilerplate against its specification.

The file shallowly embeds the Go source under `internal/` (DTO validation,
book service update logic, pagination normalisation in the books handler)
and, for the concurrency pattern library that the repository documents but
whose implementation (`internal/services/concurrent_service.go`) is absent
from the tree, models the contracts from the specification text.

Conventions for the Go embedding:
  * a Go `*T` (nilable) field is `Option T`;
  * a Go function returning `error` is modelled as returning `Option String`
    (`none` = nil error, `some msg` = the error message);
  * Go `len(s)` on a string counts bytes, modelled by `String.utf8ByteSize`;
  * `strings.TrimSpace` is modelled by `String.trim` (whitespace trimming).
-/

namespace GoFiber

/-! ## DTO layer: `internal/dto` -/

/-- Model of Go's `strings.TrimSpace` on the strings this code handles. -/
def trimSpace (s : String) : String := s.trim

/-- Model of Go's `len` on a string: its byte length. -/
def goLen (s : String) : Nat := s.utf8ByteSize

/-- `UpdateBookRequest` from `internal/dto` (book DTOs): four optional
(pointer) fields; `none` models a nil pointer / absent JSON field. -/
structure UpdateBookRequest where
  title : Option String
  author : Option String
  year : Option Int
  isbn : Option String

/-- ISBN check of `UpdateBookRequest.Validate` (the final `if r.ISBN != nil`
block, reached when the earlier fields validated). -/
def UpdateBookRequest.validateIsbn (r : UpdateBookRequest) : Option String :=
  match r.isbn with
  | some i =>
    if trimSpace i = "" then some "isbn cannot be empty"
    else if goLen i > 20 then some "isbn cannot exceed 20 characters"
    else none
  | none => none

/-- Year check of `UpdateBookRequest.Validate` (continuation after author). -/
def UpdateBookRequest.validateYear (r : UpdateBookRequest) : Option String :=
  match r.year with
  | some y =>
    if y < 1000 ∨ y > 9999 then some "year must be a valid 4-digit year (1000-9999)"
    else UpdateBookRequest.validateIsbn r
  | none => UpdateBookRequest.validateIsbn r

/-- Author check of `UpdateBookRequest.Validate` (continuation after title). -/
def UpdateBookRequest.validateAuthor (r : UpdateBookRequest) : Option String :=
  match r.author with
  | some a =>
    if trimSpace a = "" then some "author cannot be empty"
    else if goLen a < 2 then some "author must be at least 2 characters"
    else if goLen a > 255 then some "author cannot exceed 255 characters"
    else UpdateBookRequest.validateYear r
  | none => UpdateBookRequest.validateYear r

/-- `UpdateBookRequest.Validate`: each field is validated only if provided;
returns the first error, `none` on success.  Mirrors the Go chain of checks. -/
def UpdateBookRequest.validate (r : UpdateBookRequest) : Option String :=
  match r.title with
  | some t =>
    if trimSpace t = "" then some "title cannot be empty"
    else if goLen t < 2 then some "title must be at least 2 characters"
    else if goLen t > 255 then some "title cannot exceed 255 characters"
    else UpdateBookRequest.validateAuthor r
  | none => UpdateBookRequest.validateAuthor r

/-- The mutable columns of `models.Book` that `UpdateBook` can touch. -/
structure Book where
  title : String
  author : String
  year : Int
  isbn : String
deriving DecidableEq

/-- A value stored in the `updateData` map of `BookService.UpdateBook`. -/
inductive FieldVal where
  | str (s : String)
  | int (i : Int)
deriving DecidableEq

/-- The `updateData` map built by `BookService.UpdateBook`: one entry per
provided (non-nil) field, mirroring the four `if req.X != nil` blocks. -/
def updateData (r : UpdateBookRequest) : List (String × FieldVal) :=
  (match r.title with | some t => [("title", FieldVal.str t)] | none => []) ++
  (match r.author with | some a => [("author", FieldVal.str a)] | none => []) ++
  (match r.year with | some y => [("year", FieldVal.int y)] | none => []) ++
  (match r.isbn with | some i => [("isbn", FieldVal.str i)] | none => [])

/-- Semantics of gorm `Updates` on one map entry: set the named column. -/
def applyField (b : Book) (e : String × FieldVal) : Book :=
  match e with
  | ("title", FieldVal.str t) => { b with title := t }
  | ("author", FieldVal.str a) => { b with author := a }
  | ("year", FieldVal.int y) => { b with year := y }
  | ("isbn", FieldVal.str i) => { b with isbn := i }
  | _ => b

/-- `BookService.UpdateBook`'s update step: apply the `updateData` map to
the fetched book (gorm `Updates` with a column map). -/
def applyUpdateBook (b : Book) (r : UpdateBookRequest) : Book :=
  (updateData r).foldl applyField b

/-- `ChangePasswordRequest` from `internal/dto/user_dto.go`. -/
structure ChangePasswordRequest where
  oldPassword : String
  newPassword : String

/-- `ChangePasswordRequest.Validate` from `internal/dto/user_dto.go`:
old password required, new password required with byte length in [6, 255],
and the new password must differ from the old one. -/
def ChangePasswordRequest.validate (r : ChangePasswordRequest) : Option String :=
  if r.oldPassword = "" then some "old_password is required and cannot be empty"
  else if r.newPassword = "" then some "new_password is required and cannot be empty"
  else if goLen r.newPassword < 6 then some "new_password must be at least 6 characters"
  else if goLen r.newPassword > 255 then some "new_password cannot exceed 255 characters"
  else if r.oldPassword = r.newPassword then some "new password must be different from old password"
  else none

/-! ## Handler layer: `internal/handlers/books.go` (pagination) -/

/-- Numeric value of a list of decimal digit characters. -/
def digitsVal (cs : List Char) : Nat :=
  cs.foldl (fun a c => a * 10 + (c.toNat - 48)) 0

/-- Whether a string is a syntactically valid input to `strconv.Atoi`:
an optional sign followed by at least one decimal digit. -/
def atoiSyntaxOk (s : String) : Bool :=
  match s.toList with
  | '+' :: r => !r.isEmpty && r.all Char.isDigit
  | '-' :: r => !r.isEmpty && r.all Char.isDigit
  | r => !r.isEmpty && r.all Char.isDigit

/-- Model of the value returned by Go's `strconv.Atoi` on a 64-bit platform
with the error discarded (as `GetBooks` does): 0 on a syntax error, the
parsed value clamped to the int64 range on overflow. -/
def goAtoi (s : String) : Int :=
  if atoiSyntaxOk s then
    let v : Int :=
      match s.toList with
      | '+' :: r => (digitsVal r : Int)
      | '-' :: r => -(digitsVal r : Int)
      | r => (digitsVal r : Int)
    if v > (2 ^ 63 - 1 : Int) then (2 ^ 63 - 1 : Int)
    else if v < (-(2 ^ 63) : Int) then (-(2 ^ 63) : Int)
    else v
  else 0

/-- Pagination normalisation of `GetBooks`: read `page` (default "1") and
`limit` (default "10") from the query string, parse with `strconv.Atoi`
ignoring errors, then clamp `page < 1` to 1 and `limit` outside [1, 100]
to 10.  Returns the (page, limit) pair passed to `GetAllBooks`. -/
def getBooksParams (pageQ limitQ : Option String) : Int × Int :=
  let page := goAtoi (pageQ.getD "1")
  let lim := goAtoi (limitQ.getD "10")
  (if page < 1 then 1 else page, if lim < 1 ∨ lim > 100 then 10 else lim)

/-! ## Concurrency pattern library

`internal/services/concurrent_service.go` is referenced throughout the
repository's README but is absent from the tree, so the primitives below are
modelled from the specification text (§3–§6).  Concurrency is made explicit:
a scheduler is a list of entity indices, and each theorem quantifies over
all schedules, so the proved properties hold for every interleaving. -/

/-- Modelled from the spec: `TaskOutcome` of the missing
`concurrent_service.go`, the tagged union Success(value) | Failure(error). -/
inductive TaskOutcome (α : Type) where
  | success (v : α)
  | failure (e : String)
deriving DecidableEq

/-- Modelled from the spec: the dynamic behaviour of a caller-supplied
`work` callback — it either returns an outcome or panics with a message. -/
inductive WorkBehavior (α : Type) where
  | returns (o : TaskOutcome α)
  | panics (msg : String)
deriving DecidableEq

/-- Modelled from the spec (§4.1 failure semantics): a panic inside `work`
is captured (recovered) as a Failure outcome for that input. -/
def capture {α : Type} (b : WorkBehavior α) : TaskOutcome α :=
  match b with
  | .returns o => o
  | .panics m => .failure ("recovered: " ++ m)

/-- Status of one worker of the bounded pool: waiting to dequeue, executing
a unit of work for input `i`, or finished after observing queue closure. -/
inductive WStatus (ι : Type) where
  | idle
  | working (i : ι)
  | done
deriving DecidableEq

/-- The inputs a worker currently holds in flight (none unless working). -/
def WStatus.inFlight {ι : Type} : WStatus ι → List ι
  | .idle => []
  | .working i => [i]
  | .done => []

/-- Whether a worker has finished. -/
def WStatus.isDone {ι : Type} : WStatus ι → Bool
  | .idle => false
  | .working _ => false
  | .done => true

/-- Modelled from the spec (§4.1): state of the bounded worker pool — the
shared FIFO work queue, the workers, and the collected result set. -/
structure PoolState (ι ω : Type) where
  queue : List ι
  workers : List (WStatus ι)
  results : List (ι × ω)
deriving DecidableEq

/-- Initial pool state: the queue populated with all inputs up front and
`workerCount` idle workers spawned. -/
def initPool {ι ω : Type} (inputs : List ι) (workerCount : Nat) : PoolState ι ω :=
  ⟨inputs, List.replicate workerCount WStatus.idle, []⟩

/-- Modelled from the spec (§4.1 behaviour): one scheduler-chosen step of
worker `w`.  An idle worker dequeues the next input (or, if the queue is
exhausted, observes closure and finishes); a working worker records the
outcome of its unit of work and loops back to dequeue. -/
def poolStep {ι ω : Type} (work : ι → ω) (s : PoolState ι ω) (w : Nat) : PoolState ι ω :=
  match s.workers[w]? with
  | some WStatus.idle =>
    match s.queue with
    | i :: q => ⟨q, s.workers.set w (WStatus.working i), s.results⟩
    | [] => ⟨[], s.workers.set w WStatus.done, s.results⟩
  | some (WStatus.working i) =>
    ⟨s.queue, s.workers.set w WStatus.idle, s.results ++ [(i, work i)]⟩
  | _ => s

/-- Run the pool under an explicit schedule (the interleaving chosen by the
host scheduler): each entry names the worker that moves next. -/
def runPoolSched {ι ω : Type} (work : ι → ω) (s : PoolState ι ω) (σ : List Nat) :
    PoolState ι ω :=
  σ.foldl (poolStep work) s

/-- The pool's join barrier: `RunPool` returns once every worker is done. -/
def PoolState.finished {ι ω : Type} (s : PoolState ι ω) : Bool :=
  s.workers.all WStatus.isDone

/-- A canonical fair schedule: round-robin over `wc` workers, long enough
to drain a queue of `n` inputs. -/
def roundRobinSched (wc n : Nat) : List Nat :=
  (List.range (wc * (2 * n + 2))).map (· % wc)

/-- Modelled from the spec (§4.1, §6): `RunPool(inputs, workerCount, work)`.
If `inputs` is empty it returns an empty ResultSet immediately without
spawning workers; otherwise it spawns `workerCount` workers and drains the
queue.  Returns the ResultSet together with the number of workers spawned. -/
def RunPool {ι ω : Type} (inputs : List ι) (workerCount : Nat) (work : ι → ω) :
    List (ι × ω) × Nat :=
  if inputs.isEmpty then ([], 0)
  else
    ((runPoolSched work (initPool inputs workerCount)
        (roundRobinSched workerCount inputs.length)).results, workerCount)

/-- Pool invariant: (1) the results, the queued inputs and the in-flight
inputs together are exactly the original inputs, as a multiset; (2) every
recorded outcome is `work` of its input; (3) once some worker has observed
queue closure the queue is empty; (4) the worker count is fixed. -/
def poolInv {ι ω : Type} (work : ι → ω) (inputs : List ι) (wc : Nat)
    (s : PoolState ι ω) : Prop :=
  ((s.results.map Prod.fst : Multiset ι) + (s.queue : Multiset ι) +
      ((s.workers.map WStatus.inFlight).flatten : Multiset ι) = (inputs : Multiset ι))
  ∧ (∀ p ∈ s.results, p.2 = work p.1)
  ∧ (WStatus.done ∈ s.workers → s.queue = [])
  ∧ s.workers.length = wc

/-- Updating worker `w` from status `st` to `x` exchanges their in-flight
contributions in the pool's in-flight multiset. -/
lemma inflight_set {ι : Type} (l : List (WStatus ι)) (w : Nat) (st x : WStatus ι)
    (h : l[w]? = some st) :
    (((l.set w x).map WStatus.inFlight).flatten : Multiset ι) + (st.inFlight : Multiset ι)
      = ((l.map WStatus.inFlight).flatten : Multiset ι) + (x.inFlight : Multiset ι) := by
  induction l generalizing w with
  | nil => simp at h
  | cons a t ih =>
    cases w with
    | zero =>
      simp only [List.getElem?_cons_zero, Option.some.injEq] at h
      subst h
      simp only [List.set_cons_zero, List.map_cons, List.flatten_cons, ← Multiset.coe_add]
      abel
    | succ n =>
      simp only [List.getElem?_cons_succ] at h
      simp only [List.set_cons_succ, List.map_cons, List.flatten_cons, ← Multiset.coe_add]
      have h2 := ih n h
      calc (WStatus.inFlight a : Multiset ι) +
            ↑(List.map WStatus.inFlight (t.set n x)).flatten + ↑st.inFlight
          = ↑(WStatus.inFlight a) +
            (↑(List.map WStatus.inFlight (t.set n x)).flatten + ↑st.inFlight) := by abel
        _ = ↑(WStatus.inFlight a) +
            (↑(List.map WStatus.inFlight t).flatten + ↑x.inFlight) := by rw [h2]
        _ = ↑(WStatus.inFlight a) + ↑(List.map WStatus.inFlight t).flatten + ↑x.inFlight := by
            abel

/-- Splitting a cons off a list-as-multiset. -/
lemma coe_cons_split {α : Type} (a : α) (l : List α) :
    ((a :: l : List α) : Multiset α) = (([a] : List α) : Multiset α) + (l : Multiset α) :=
  (Multiset.coe_add [a] l).symm

/-- One pool step, by any worker, preserves the pool invariant. -/
lemma poolStep_inv {ι ω : Type} (work : ι → ω) (inputs : List ι) (wc : Nat)
    (s : PoolState ι ω) (w : Nat) (h : poolInv work inputs wc s) :
    poolInv work inputs wc (poolStep work s w) := by
  obtain ⟨hcount, hout, hdrain, hlen⟩ := h
  unfold poolInv poolStep
  cases hw : s.workers[w]? with
  | none => exact ⟨hcount, hout, hdrain, hlen⟩
  | some st =>
    cases st with
    | idle =>
      cases hq : s.queue with
      | nil =>
        have hset := inflight_set s.workers w WStatus.idle WStatus.done hw
        simp only [WStatus.inFlight, Multiset.coe_nil, add_zero] at hset
        refine ⟨?_, hout, fun _ => rfl, by simp [hlen]⟩
        rw [hq] at hcount
        rw [hset]
        exact hcount
      | cons i q =>
        have hset := inflight_set s.workers w WStatus.idle (WStatus.working i) hw
        simp only [WStatus.inFlight, Multiset.coe_nil, add_zero] at hset
        rw [hq] at hcount
        refine ⟨?_, hout, ?_, by simp [hlen]⟩
        · rw [hset, ← hcount,
            show ((i :: q : List ι) : Multiset ι) = ↑([i] : List ι) + ↑q from coe_cons_split i q]
          abel
        · intro hd
          rcases List.mem_or_eq_of_mem_set hd with hmem | heq
          · have hqnil := hdrain hmem
            rw [hq] at hqnil
            simp at hqnil
          · simp at heq
    | working i =>
      have hset := inflight_set s.workers w (WStatus.working i) WStatus.idle hw
      simp only [WStatus.inFlight, Multiset.coe_nil, add_zero] at hset
      refine ⟨?_, ?_, ?_, by simp [hlen]⟩
      · calc ((((s.results ++ [(i, work i)]).map Prod.fst : List ι)) : Multiset ι)
              + ↑s.queue + ↑((s.workers.set w WStatus.idle).map WStatus.inFlight).flatten
            = ↑(s.results.map Prod.fst) + ↑s.queue
              + (↑((s.workers.set w WStatus.idle).map WStatus.inFlight).flatten
                  + ↑([i] : List ι)) := by
              simp only [List.map_append, ← Multiset.coe_add, List.map_cons, List.map_nil]
              abel
          _ = ↑(s.results.map Prod.fst) + ↑s.queue
              + ↑(s.workers.map WStatus.inFlight).flatten := by rw [hset]
          _ = ↑inputs := hcount
      · intro p hp
        rcases List.mem_append.mp hp with hp1 | hp1
        · exact hout p hp1
        · simp only [List.mem_singleton] at hp1
          subst hp1
          rfl
      · intro hd
        rcases List.mem_or_eq_of_mem_set hd with hmem | heq
        · exact hdrain hmem
        · simp at heq
    | done => exact ⟨hcount, hout, hdrain, hlen⟩

/-- Running any schedule preserves the pool invariant. -/
lemma runPoolSched_inv {ι ω : Type} (work : ι → ω) (inputs : List ι) (wc : Nat)
    (s : PoolState ι ω) (σ : List Nat) (h : poolInv work inputs wc s) :
    poolInv work inputs wc (runPoolSched work s σ) := by
  induction σ generalizing s with
  | nil => exact h
  | cons w σ ih => exact ih (poolStep work s w) (poolStep_inv work inputs wc s w h)

/-- The initial pool state satisfies the invariant. -/
lemma initPool_inv {ι ω : Type} (work : ι → ω) (inputs : List ι) (wc : Nat) :
    poolInv work inputs wc (initPool (ω := ω) inputs wc) := by
  refine ⟨?_, ?_, ?_, ?_⟩
  · have h0 : ((List.replicate wc (WStatus.idle (ι := ι))).map WStatus.inFlight).flatten
        = ([] : List ι) := by
      induction wc with
      | zero => rfl
      | succ n ih =>
        simp only [List.replicate_succ, List.map_cons, List.flatten_cons, ih]
        rfl
    simp only [initPool, h0]
    simp
  · intro p hp
    simp [initPool] at hp
  · intro hd
    simp [initPool] at hd
  · simp [initPool]

/-- If every worker is done, no work is in flight. -/
lemma allDone_inflight {ι : Type} (l : List (WStatus ι)) (h : l.all WStatus.isDone = true) :
    (l.map WStatus.inFlight).flatten = [] := by
  induction l with
  | nil => rfl
  | cons a t ih =>
    simp only [List.all_cons, Bool.and_eq_true] at h
    cases a with
    | idle => simp [WStatus.isDone] at h
    | working i => simp [WStatus.isDone] at h
    | done => simpa [WStatus.inFlight] using ih h.2

/-- A result list whose outcomes all agree with `work` is the image of its
own first components. -/
lemma results_eq_map {ι ω : Type} (work : ι → ω) (rs : List (ι × ω))
    (h : ∀ p ∈ rs, p.2 = work p.1) :
    rs = (rs.map Prod.fst).map (fun i => (i, work i)) := by
  induction rs with
  | nil => rfl
  | cons p t ih =>
    have hp := h p (List.mem_cons_self p t)
    have ht := ih (fun q hq => h q (List.mem_cons_of_mem p hq))
    simp only [List.map_cons]
    rw [← ht, ← hp]

/-- Main worker-pool lemma: under any schedule after which the pool has
passed its join barrier, the collected result set is a permutation of one
outcome per input, the queue is drained, and no work is left in flight. -/
lemma runPoolSched_perm {ι ω : Type} (inputs : List ι) (wc : Nat) (work : ι → ω)
    (σ : List Nat) (hwc : 1 ≤ wc)
    (hfin : (runPoolSched work (initPool inputs wc) σ).finished = true) :
    (runPoolSched work (initPool inputs wc) σ).results.Perm
        (inputs.map fun i => (i, work i))
    ∧ (runPoolSched work (initPool inputs wc) σ).queue = []
    ∧ ((runPoolSched work (initPool inputs wc) σ).workers.map WStatus.inFlight).flatten
        = [] := by
  obtain ⟨hcount, hout, hdrain, hlen⟩ :=
    runPoolSched_inv work inputs wc (initPool inputs wc) σ (initPool_inv work inputs wc)
  set s := runPoolSched work (initPool inputs wc) σ with hs
  have hfl : (s.workers.map WStatus.inFlight).flatten = [] :=
    allDone_inflight s.workers hfin
  have hdone : WStatus.done ∈ s.workers := by
    cases hwk : s.workers with
    | nil =>
      rw [hwk] at hlen
      simp at hlen
      omega
    | cons a t =>
      rw [PoolState.finished, hwk] at hfin
      simp only [List.all_cons, Bool.and_eq_true] at hfin
      cases a with
      | idle => simp [WStatus.isDone] at hfin
      | working i => simp [WStatus.isDone] at hfin
      | done => exact List.mem_cons_self _ _
  have hq : s.queue = [] := hdrain hdone
  refine ⟨?_, hq, hfl⟩
  rw [hq, hfl] at hcount
  simp only [Multiset.coe_nil, add_zero] at hcount
  have hperm : (s.results.map Prod.fst).Perm inputs := Multiset.coe_eq_coe.mp hcount
  have := results_eq_map work s.results hout
  rw [this]
  exact hperm.map (fun i => (i, work i))

/-- C1: for every non-empty input sequence and every workerCount between 1
and the number of inputs, under any schedule by which the pool reaches its
join barrier, the ResultSet contains exactly one outcome per input — it is
a permutation of `work` applied to each input, so no input is missing and
none appears twice — and at the barrier the queue is drained and no worker
still holds a unit of work. -/
theorem runPool_exactly_one_outcome_per_input {ι ω : Type} (inputs : List ι)
    (workerCount : Nat) (work : ι → ω) (σ : List Nat)
    (_hne : inputs ≠ []) (h1 : 1 ≤ workerCount) (_h2 : workerCount ≤ inputs.length)
    (hfin : (runPoolSched work (initPool inputs workerCount) σ).finished = true) :
    (runPoolSched work (initPool inputs workerCount) σ).results.Perm
        (inputs.map fun i => (i, work i))
    ∧ (runPoolSched work (initPool inputs workerCount) σ).queue = []
    ∧ ((runPoolSched work (initPool inputs workerCount) σ).workers.map
        WStatus.inFlight).flatten = [] :=
  runPoolSched_perm inputs workerCount work σ h1 hfin

/-- Witness for C1: inputs [1, 2, 3], two workers, a concrete schedule. -/
theorem runPool_exactly_one_outcome_per_input_witness :
    (runPoolSched (fun i => i * i) (initPool ([1, 2, 3] : List Nat) 2)
        [0, 0, 0, 0, 0, 0, 0, 1]).results.Perm
        (([1, 2, 3] : List Nat).map fun i => (i, i * i))
    ∧ (runPoolSched (fun i => i * i) (initPool ([1, 2, 3] : List Nat) 2)
        [0, 0, 0, 0, 0, 0, 0, 1]).queue = []
    ∧ ((runPoolSched (fun i => i * i) (initPool ([1, 2, 3] : List Nat) 2)
        [0, 0, 0, 0, 0, 0, 0, 1]).workers.map WStatus.inFlight).flatten = [] :=
  runPool_exactly_one_outcome_per_input ([1, 2, 3] : List Nat) 2 (fun i => i * i)
    [0, 0, 0, 0, 0, 0, 0, 1] (by decide) (by decide) (by decide) (by decide)

/-- C2: `RunPool` applied to an empty input sequence returns an empty
ResultSet immediately and spawns no workers, for every workerCount ≥ 1. -/
theorem runPool_empty_inputs {ι ω : Type} (workerCount : Nat) (work : ι → ω)
    (_h1 : 1 ≤ workerCount) :
    RunPool ([] : List ι) workerCount work = ([], 0) := rfl

/-- Witness for C2 at workerCount 1. -/
theorem runPool_empty_inputs_witness :
    RunPool ([] : List Nat) 1 (fun i => i * i) = ([], 0) :=
  runPool_empty_inputs 1 (fun i => i * i) (by decide)

/-- C3: a panic inside `work` is captured as a Failure outcome for that
input and never aborts sibling tasks: under any schedule reaching the join
barrier, the panicking input's result is the recovered Failure outcome and
every sibling input's own captured outcome is also in the ResultSet. -/
theorem runPool_panic_isolation {ι α : Type} (inputs : List ι) (workerCount : Nat)
    (behavior : ι → WorkBehavior α) (σ : List Nat) (i : ι) (m : String)
    (h1 : 1 ≤ workerCount)
    (hfin : (runPoolSched (fun j => capture (behavior j))
        (initPool inputs workerCount) σ).finished = true)
    (hi : i ∈ inputs) (hp : behavior i = WorkBehavior.panics m) :
    (i, TaskOutcome.failure ("recovered: " ++ m)) ∈
        (runPoolSched (fun j => capture (behavior j))
          (initPool inputs workerCount) σ).results
    ∧ ∀ j ∈ inputs, (j, capture (behavior j)) ∈
        (runPoolSched (fun j => capture (behavior j))
          (initPool inputs workerCount) σ).results := by
  obtain ⟨hperm, -, -⟩ :=
    runPoolSched_perm inputs workerCount (fun j => capture (behavior j)) σ h1 hfin
  constructor
  · have hm : (i, capture (behavior i)) ∈
        (inputs.map fun j => (j, capture (behavior j))) :=
      List.mem_map_of_mem _ hi
    rw [hp] at hm
    simp only [capture] at hm
    exact hperm.mem_iff.mpr hm
  · intro j hj
    exact hperm.mem_iff.mpr (List.mem_map_of_mem _ hj)

/-- Witness for C3: input 2 panics with "boom" among inputs [1, 2, 3]. -/
theorem runPool_panic_isolation_witness :
    ((2 : Nat), TaskOutcome.failure ("recovered: " ++ "boom")) ∈
      (runPoolSched
        (fun j => capture (if j = 2 then WorkBehavior.panics "boom"
          else WorkBehavior.returns (TaskOutcome.success j)))
        (initPool ([1, 2, 3] : List Nat) 1) [0, 0, 0, 0, 0, 0, 0]).results :=
  (runPool_panic_isolation ([1, 2, 3] : List Nat) 1
    (fun j => if j = 2 then WorkBehavior.panics "boom"
      else WorkBehavior.returns (TaskOutcome.success j))
    [0, 0, 0, 0, 0, 0, 0] 2 "boom" (by decide) (by decide) (by decide) (by decide)).1

/-! ## Admission semaphore (spec §4.4) -/

/-- An attempted semaphore operation: a task asking for a permit, or a
task giving its permit back. -/
inductive SemOp where
  | acquire
  | release
deriving DecidableEq

/-- Modelled from the spec (§4.4, missing `NewSemaphore`): effect of one
attempted operation on the count of outstanding permits of a semaphore with
capacity `maxConcurrent`.  `Acquire` blocks (admits nothing) while the
semaphore is at capacity; `Release` blocks while no permit is outstanding. -/
def semStep (maxConcurrent c : Nat) : SemOp → Nat
  | .acquire => if c < maxConcurrent then c + 1 else c
  | .release => if 0 < c then c - 1 else c

/-- All intermediate outstanding-permit counts along a trace of attempted
operations, starting from `c` permits outstanding. -/
def semStates (maxConcurrent c : Nat) : List SemOp → List Nat
  | [] => [c]
  | op :: ops => c :: semStates maxConcurrent (semStep maxConcurrent c op) ops

/-- Modelled from the spec (§4.4, §6): the observable permit counts of a
semaphore created by `NewSemaphore(maxConcurrent)` (zero permits initially)
under an arbitrary interleaving of Acquire and Release attempts. -/
def NewSemaphoreRun (maxConcurrent : Nat) (ops : List SemOp) : List Nat :=
  semStates maxConcurrent 0 ops

/-- Along any trace started at a count within capacity, every intermediate
count stays within capacity. -/
lemma semStates_le (maxConcurrent : Nat) (ops : List SemOp) (c : Nat)
    (hc : c ≤ maxConcurrent) :
    ∀ n ∈ semStates maxConcurrent c ops, n ≤ maxConcurrent := by
  induction ops generalizing c with
  | nil =>
    intro n hn
    simp only [semStates, List.mem_singleton] at hn
    omega
  | cons op ops ih =>
    intro n hn
    simp only [semStates, List.mem_cons] at hn
    rcases hn with hn | hn
    · omega
    · refine ih (semStep maxConcurrent c op) ?_ n hn
      cases op with
      | acquire =>
        simp only [semStep]
        split <;> omega
      | release =>
        simp only [semStep]
        split <;> omega

/-- C5: for a semaphore created by `NewSemaphore(maxConcurrent)` with a
positive capacity, under every interleaving of Acquire and Release
attempts the number of permits outstanding never exceeds `maxConcurrent`
at any instant. -/
theorem semaphore_never_exceeds_capacity (maxConcurrent : Nat) (ops : List SemOp)
    (_hpos : 1 ≤ maxConcurrent) :
    ∀ n ∈ NewSemaphoreRun maxConcurrent ops, n ≤ maxConcurrent :=
  semStates_le maxConcurrent ops 0 (Nat.zero_le _)

/-- Witness for C5: capacity 3, seven racing acquires interleaved with
releases; the count reached right after the saturating acquires is within
capacity. -/
theorem semaphore_never_exceeds_capacity_witness :
    (NewSemaphoreRun 3
      [SemOp.acquire, SemOp.acquire, SemOp.acquire, SemOp.acquire, SemOp.acquire,
        SemOp.release, SemOp.acquire, SemOp.acquire, SemOp.release, SemOp.release]).getD 4 0
      ≤ 3 :=
  semaphore_never_exceeds_capacity 3
    [SemOp.acquire, SemOp.acquire, SemOp.acquire, SemOp.acquire, SemOp.acquire,
      SemOp.release, SemOp.acquire, SemOp.acquire, SemOp.release, SemOp.release]
    (by decide)
    ((NewSemaphoreRun 3
      [SemOp.acquire, SemOp.acquire, SemOp.acquire, SemOp.acquire, SemOp.acquire,
        SemOp.release, SemOp.acquire, SemOp.acquire, SemOp.release, SemOp.release]).getD 4 0)
    (by decide)

/-! ## Timeout guard (spec §4.5) -/

/-- Terminal outcome of a timeout guard: the task's own outcome, or
TimedOut when the deadline fires first. -/
inductive GuardOutcome (α : Type) where
  | completed (o : TaskOutcome α)
  | timedOut
deriving DecidableEq

/-- Modelled from the spec (§4.5): which of the two completion signals is
observed — the task result (fires at `taskTime`) or the deadline (fires at
`d`).  The first to fire wins; a tie resolves either way, captured by the
nondeterministic `tieBreakTask` choice. -/
def firstSignalIsTask (taskTime d : Nat) (tieBreakTask : Bool) : Bool :=
  if taskTime < d then true
  else if d < taskTime then false
  else tieBreakTask

/-- Modelled from the spec (§4.5, §6): `RunWithTimeout(task, d)` for a task
whose own outcome is `o` and whose runtime is `taskTime`: the guard observes
only the first of the two completion signals and ignores the other. -/
def RunWithTimeout {α : Type} (o : TaskOutcome α) (taskTime d : Nat)
    (tieBreakTask : Bool) : GuardOutcome α :=
  if firstSignalIsTask taskTime d tieBreakTask then GuardOutcome.completed o
  else GuardOutcome.timedOut

/-- C6: `RunWithTimeout(task, d)` produces exactly one terminal outcome —
the task's own outcome when the task completes strictly before the
deadline, TimedOut when the runtime strictly exceeds the deadline — and in
every case exactly one of the two signals is observed, never both. -/
theorem runWithTimeout_first_signal_wins {α : Type} (o : TaskOutcome α)
    (taskTime d : Nat) (tieBreakTask : Bool) :
    (taskTime < d → RunWithTimeout o taskTime d tieBreakTask = GuardOutcome.completed o)
    ∧ (d < taskTime → RunWithTimeout o taskTime d tieBreakTask = GuardOutcome.timedOut)
    ∧ (RunWithTimeout o taskTime d tieBreakTask = GuardOutcome.completed o
        ↔ ¬ RunWithTimeout o taskTime d tieBreakTask = GuardOutcome.timedOut) := by
  refine ⟨?_, ?_, ?_⟩
  · intro h
    simp [RunWithTimeout, firstSignalIsTask, h]
  · intro h
    have h2 : ¬ taskTime < d := by omega
    simp [RunWithTimeout, firstSignalIsTask, h, h2]
  · unfold RunWithTimeout
    split <;> simp

/-- Witness for C6: a task finishing at time 3 against a deadline of 5
keeps its own outcome; a task running to time 9 against a deadline of 5
times out. -/
theorem runWithTimeout_first_signal_wins_witness :
    RunWithTimeout (TaskOutcome.success (7 : Nat)) 3 5 true
        = GuardOutcome.completed (TaskOutcome.success 7)
    ∧ RunWithTimeout (TaskOutcome.success (7 : Nat)) 9 5 true
        = GuardOutcome.timedOut :=
  ⟨(runWithTimeout_first_signal_wins (TaskOutcome.success 7) 3 5 true).1 (by decide),
    (runWithTimeout_first_signal_wins (TaskOutcome.success 7) 9 5 true).2.1 (by decide)⟩

/-! ## Fan-out/fan-in stage (spec §4.2) -/

/-- Take the next emitted value from producer `i`, if that producer still
has output pending; returns the value and the remaining producer outputs. -/
def takeFrom {α : Type} : List (List α) → Nat → Option (α × List (List α))
  | [], _ => none
  | p :: rest, 0 =>
    match p with
    | [] => none
    | x :: xs => some (x, xs :: rest)
  | p :: rest, Nat.succ n => (takeFrom rest n).map (fun r => (r.1, p :: r.2))

/-- Modelled from the spec (§4.2): one arrival at the single-threaded merge
point — the scheduler-chosen producer `i` emits its next value into the
arrival stream; a producer with nothing left to emit contributes nothing. -/
def mergeStepFan {α : Type} (st : List (List α) × List α) (i : Nat) :
    List (List α) × List α :=
  match takeFrom st.1 i with
  | some (x, ps) => (ps, st.2 ++ [x])
  | none => st

/-- Run the fan-in merge under an explicit arrival schedule: the second
component is the arrival-ordered stream the single consolidator observes. -/
def mergeRun {α : Type} (producers : List (List α)) (σ : List Nat) :
    List (List α) × List α :=
  σ.foldl mergeStepFan (producers, [])

/-- All producers have signalled completion (emitted everything). -/
def allDrained {α : Type} (ps : List (List α)) : Bool := ps.all List.isEmpty

/-- First-arrival-wins deduplication: keep a result only when its dedup key
has not been seen yet. -/
def fanInAux {α κ : Type} [DecidableEq κ] (key : α → κ) (seen : List κ) :
    List α → List α
  | [] => []
  | x :: xs =>
    if key x ∈ seen then fanInAux key seen xs
    else x :: fanInAux key (key x :: seen) xs

/-- Modelled from the spec (§4.2): the fan-in consolidator applied to the
arrival stream — the first result observed for a given key wins, subsequent
duplicates are dropped. -/
def fanIn {α κ : Type} [DecidableEq κ] (key : α → κ) (arrivals : List α) : List α :=
  fanInAux key [] arrivals

/-- Modelled from the spec (§4.2, §6): `RunFanOutFanIn(producers, key)`
under arrival schedule `σ`: merge all producer emissions in arrival order,
then deduplicate first-wins at the single-threaded merge point. -/
def RunFanOutFanIn {α κ : Type} [DecidableEq κ] (producers : List (List α))
    (key : α → κ) (σ : List Nat) : List α :=
  fanIn key (mergeRun producers σ).2

/-- Taking a value from a producer removes exactly that value from the
pending emissions, as a multiset. -/
lemma takeFrom_flatten {α : Type} (ps : List (List α)) (i : Nat) (x : α)
    (ps' : List (List α)) (h : takeFrom ps i = some (x, ps')) :
    (ps.flatten : Multiset α) = (ps'.flatten : Multiset α) + ↑([x] : List α) := by
  induction ps generalizing i ps' with
  | nil => simp [takeFrom] at h
  | cons p rest ih =>
    cases i with
    | zero =>
      cases p with
      | nil => simp [takeFrom] at h
      | cons y ys =>
        simp only [takeFrom, Option.some.injEq, Prod.mk.injEq] at h
        obtain ⟨hx, hps⟩ := h
        subst hx
        subst hps
        simp only [List.flatten_cons, ← Multiset.coe_add]
        rw [coe_cons_split]
        abel
    | succ n =>
      cases htr : takeFrom rest n with
      | none => simp [takeFrom, htr] at h
      | some r =>
        obtain ⟨x', r'⟩ := r
        simp only [takeFrom, htr, Option.map_some', Option.some.injEq,
          Prod.mk.injEq] at h
        obtain ⟨hx, hps⟩ := h
        subst hx
        subst hps
        simp only [List.flatten_cons, ← Multiset.coe_add]
        rw [ih n r' htr]
        abel

/-- Merge invariant: arrivals plus pending emissions are exactly the
producers' total emissions, as a multiset. -/
lemma mergeRun_count {α : Type} (producers : List (List α)) (σ : List Nat) :
    ((mergeRun producers σ).1.flatten : Multiset α) + ↑(mergeRun producers σ).2
      = (producers.flatten : Multiset α) := by
  suffices h : ∀ st : List (List α) × List α,
      (((σ.foldl mergeStepFan st).1.flatten : Multiset α) + ↑(σ.foldl mergeStepFan st).2)
        = (st.1.flatten : Multiset α) + ↑st.2 by
    have := h (producers, [])
    simpa [mergeRun] using this
  induction σ with
  | nil => intro st; rfl
  | cons i σ ih =>
    intro st
    rw [List.foldl_cons, ih (mergeStepFan st i)]
    unfold mergeStepFan
    cases ht : takeFrom st.1 i with
    | none => rfl
    | some r =>
      obtain ⟨x, ps⟩ := r
      have := takeFrom_flatten st.1 i x ps ht
      simp only [this, ← Multiset.coe_add]
      abel

/-- Producers that have all signalled completion have no pending emissions. -/
lemma allDrained_flatten {α : Type} (ps : List (List α))
    (h : allDrained ps = true) : ps.flatten = [] := by
  induction ps with
  | nil => rfl
  | cons p rest ih =>
    simp only [allDrained, List.all_cons, Bool.and_eq_true] at h
    have hp : p = [] := List.isEmpty_iff.mp h.1
    simp only [List.flatten_cons, hp, List.nil_append]
    exact ih h.2

/-- Once all producers have completed, the arrival stream is a permutation
of everything the producers emitted. -/
lemma mergeRun_perm {α : Type} (producers : List (List α)) (σ : List Nat)
    (h : allDrained (mergeRun producers σ).1 = true) :
    (mergeRun producers σ).2.Perm producers.flatten := by
  have hc := mergeRun_count producers σ
  rw [allDrained_flatten _ h] at hc
  simp only [Multiset.coe_nil, zero_add] at hc
  exact Multiset.coe_eq_coe.mp hc

/-- The size of the first-wins deduplicated stream is the number of
distinct keys not yet seen. -/
lemma fanInAux_length {α κ : Type} [DecidableEq κ] (key : α → κ) (l : List α) :
    ∀ seen : List κ, (fanInAux key seen l).length
      = ((l.map key).toFinset \ seen.toFinset).card := by
  induction l with
  | nil =>
    intro seen
    simp [fanInAux]
  | cons x xs ih =>
    intro seen
    by_cases h : key x ∈ seen
    · rw [show fanInAux key seen (x :: xs) = fanInAux key seen xs from by
        simp [fanInAux, h]]
      rw [ih seen, List.map_cons, List.toFinset_cons,
        Finset.insert_sdiff_of_mem _ (List.mem_toFinset.mpr h)]
    · rw [show fanInAux key seen (x :: xs) = x :: fanInAux key (key x :: seen) xs from by
        simp [fanInAux, h]]
      rw [List.length_cons, ih (key x :: seen), List.map_cons]
      simp only [List.toFinset_cons]
      have hnot : key x ∉ (xs.map key).toFinset \ insert (key x) seen.toFinset := by simp
      have hins : insert (key x) ((xs.map key).toFinset) \ seen.toFinset
          = insert (key x) ((xs.map key).toFinset \ insert (key x) seen.toFinset) := by
        ext y
        by_cases hy : y = key x
        · subst hy
          simp [h]
        · simp [hy]
      rw [hins, Finset.card_insert_of_not_mem hnot]

/-- C4: for every set of producers, every dedup-key function and every
arrival schedule after which all producers have completed, the result set
of `RunFanOutFanIn` — first result per key kept, subsequent duplicates
dropped — has exactly one element per distinct dedup key over all emitted
results. -/
theorem runFanOutFanIn_size_distinct_keys {α κ : Type} [DecidableEq α] [DecidableEq κ]
    (producers : List (List α)) (key : α → κ) (σ : List Nat)
    (h : allDrained (mergeRun producers σ).1 = true) :
    (RunFanOutFanIn producers key σ).length = (producers.flatten.map key).toFinset.card := by
  unfold RunFanOutFanIn fanIn
  rw [fanInAux_length key _ []]
  have hp : ((mergeRun producers σ).2.map key).Perm (producers.flatten.map key) :=
    (mergeRun_perm producers σ h).map key
  rw [List.toFinset_eq_of_perm _ _ hp]
  simp

/-- Witness for C4: two producers with overlapping emissions, interleaved;
the deduplicated result has exactly 3 elements for 3 distinct keys. -/
theorem runFanOutFanIn_size_distinct_keys_witness :
    (RunFanOutFanIn ([[1, 2], [2, 3, 2]] : List (List Nat)) (fun x => x)
        [0, 1, 1, 0, 1]).length
      = (([[1, 2], [2, 3, 2]] : List (List Nat)).flatten.map (fun x => x)).toFinset.card :=
  runFanOutFanIn_size_distinct_keys [[1, 2], [2, 3, 2]] (fun x => x) [0, 1, 1, 0, 1]
    (by decide)

/-! ## Pipeline (spec §4.3) -/

/-- Sequential composition of the stage functions, applied to one value. -/
def compose {α : Type} (fs : List (α → α)) (x : α) : α :=
  fs.foldl (fun v f => f v) x

/-- Reference definition following the spec's words for C7: the sequential
composition of the stage functions applied to the input sequence, against
which the concurrent pipeline is compared. -/
def seqPipeline {α : Type} (fs : List (α → α)) (inputs : List α) : List α :=
  inputs.map (compose fs)

/-- Modelled from the spec (§4.3): state of a linear pipeline of transform
stages — the inputs not yet fed, the contents of the `k + 1` channels
(channel `i` feeds stage `i`; the last is read by the terminal consumer),
and the emitted output. -/
structure PipeState (α : Type) where
  pending : List α
  chans : List (List α)
  output : List α
deriving DecidableEq

/-- Initial pipeline state: all channels empty. -/
def initPipe {α : Type} (fs : List (α → α)) (inputs : List α) : PipeState α :=
  ⟨inputs, List.replicate (fs.length + 1) [], []⟩

/-- One transfer by stage `n`: read the next value from its input channel,
apply its transform, and write downstream — enabled only when a value is
available and the downstream channel has room (`cap` is the channel
capacity fixed at construction; 1 models an unbuffered rendezvous slot). -/
def stageMove {α : Type} (cap : Nat) :
    List (α → α) → List (List α) → Nat → Option (List (List α))
  | f :: _, (x :: c') :: c2 :: cs', 0 =>
    if c2.length < cap then some (c' :: (c2 ++ [f x]) :: cs') else none
  | _ :: fs, c :: cs, Nat.succ n => (stageMove cap fs cs n).map (fun r => c :: r)
  | _, _, _ => none

/-- The terminal consumer reads the next value from the last channel. -/
def popLast {α : Type} : List (List α) → Option (α × List (List α))
  | [] => none
  | [c] =>
    match c with
    | [] => none
    | x :: c' => some (x, [c'])
  | c :: c2 :: cs => (popLast (c2 :: cs)).map (fun r => (r.1, c :: r.2))

/-- The producer feeds the next input into the first channel, blocking
while that channel is full. -/
def feedOne {α : Type} (cap : Nat) (s : PipeState α) : PipeState α :=
  match s.pending, s.chans with
  | x :: r, c :: cs =>
    if c.length < cap then ⟨r, (c ++ [x]) :: cs, s.output⟩ else s
  | _, _ => s

/-- One scheduler-chosen step of pipeline entity `e`: 0 is the producer,
`1..k` are the stages, anything larger is the terminal consumer.  A blocked
entity makes no progress. -/
def pipeStep {α : Type} (cap : Nat) (fs : List (α → α)) (s : PipeState α)
    (e : Nat) : PipeState α :=
  if e = 0 then feedOne cap s
  else if e ≤ fs.length then
    match stageMove cap fs s.chans (e - 1) with
    | some cs => ⟨s.pending, cs, s.output⟩
    | none => s
  else
    match popLast s.chans with
    | some (x, cs) => ⟨s.pending, cs, s.output ++ [x]⟩
    | none => s

/-- Modelled from the spec (§4.3, §6): run the concurrent pipeline under an
explicit schedule of entity steps. -/
def runPipe {α : Type} (cap : Nat) (fs : List (α → α)) (σ : List Nat)
    (s : PipeState α) : PipeState α :=
  σ.foldl (pipeStep cap fs) s

/-- The values in flight inside the pipeline, each pushed through the
stages it has not yet passed, listed oldest (deepest) first. -/
def inFlightPipe {α : Type} : List (α → α) → List (List α) → List α
  | _, [] => []
  | [], c :: _ => c
  | f :: fs, c :: cs => inFlightPipe fs cs ++ c.map (compose (f :: fs))

/-- Pipeline invariant: output, then in-flight values (fully transformed),
then unfed inputs (fully transformed) — in that order — equal the sequential
image of the original inputs; and the channel count is fixed. -/
def pipeInv {α : Type} (fs : List (α → α)) (inputs0 : List α) (s : PipeState α) : Prop :=
  s.output ++ inFlightPipe fs s.chans ++ s.pending.map (compose fs)
      = inputs0.map (compose fs)
  ∧ s.chans.length = fs.length + 1

/-- Appending to the tail of the first channel appends the fully
transformed value at the end of the in-flight list. -/
lemma inFlightPipe_feed {α : Type} (fs : List (α → α)) (c : List α)
    (cs : List (List α)) (x : α) :
    inFlightPipe fs ((c ++ [x]) :: cs)
      = inFlightPipe fs (c :: cs) ++ [compose fs x] := by
  cases fs with
  | nil => rfl
  | cons f fs =>
    simp only [inFlightPipe, List.map_append, List.map_cons, List.map_nil,
      List.append_assoc]

/-- Empty channels carry nothing in flight. -/
lemma inFlightPipe_replicate {α : Type} (fs : List (α → α)) :
    inFlightPipe fs (List.replicate (fs.length + 1) ([] : List α)) = [] := by
  induction fs with
  | nil => rfl
  | cons f fs ih =>
    simp only [List.length_cons, List.replicate_succ, inFlightPipe, List.map_nil,
      List.append_nil]
    exact ih

/-- Channels that have all drained carry nothing in flight. -/
lemma inFlightPipe_drained {α : Type} (fs : List (α → α)) :
    ∀ cs : List (List α), allDrained cs = true → inFlightPipe fs cs = [] := by
  induction fs with
  | nil =>
    intro cs h
    cases cs with
    | nil => rfl
    | cons c cs =>
      simp only [allDrained, List.all_cons, Bool.and_eq_true] at h
      simp only [inFlightPipe]
      exact List.isEmpty_iff.mp h.1
  | cons f fs ih =>
    intro cs h
    cases cs with
    | nil => rfl
    | cons c cs =>
      simp only [allDrained, List.all_cons, Bool.and_eq_true] at h
      simp only [inFlightPipe, List.isEmpty_iff.mp h.1, List.map_nil, List.append_nil]
      exact ih cs h.2

/-- A stage transfer leaves the in-flight list unchanged: the moved value
keeps exactly its position. -/
lemma stageMove_inFlight {α : Type} (cap : Nat) :
    ∀ (fs : List (α → α)) (cs cs' : List (List α)) (n : Nat),
      stageMove cap fs cs n = some cs' →
      inFlightPipe fs cs' = inFlightPipe fs cs ∧ cs'.length = cs.length := by
  intro fs
  induction fs with
  | nil =>
    intro cs cs' n h
    simp [stageMove] at h
  | cons f fs ih =>
    intro cs cs' n h
    cases n with
    | zero =>
      cases cs with
      | nil => simp [stageMove] at h
      | cons c cs₁ =>
        cases c with
        | nil => simp [stageMove] at h
        | cons x c' =>
          cases cs₁ with
          | nil => simp [stageMove] at h
          | cons c2 cs₂ =>
            simp only [stageMove] at h
            by_cases hcap : c2.length < cap
            · rw [if_pos hcap] at h
              obtain rfl : c' :: (c2 ++ [f x]) :: cs₂ = cs' := Option.some.inj h
              constructor
              · simp only [inFlightPipe, inFlightPipe_feed fs c2 cs₂ (f x)]
                simp only [List.map_cons, List.append_assoc, List.singleton_append]
                rfl
              · simp
            · rw [if_neg hcap] at h
              cases h
    | succ n =>
      cases cs with
      | nil => simp [stageMove] at h
      | cons c cs₁ =>
        simp only [stageMove] at h
        cases ht : stageMove cap fs cs₁ n with
        | none => rw [ht] at h; cases h
        | some r =>
          rw [ht] at h
          obtain rfl : c :: r = cs' := Option.some.inj h
          obtain ⟨hif, hlen⟩ := ih cs₁ r n ht
          constructor
          · simp only [inFlightPipe, hif]
          · simp [hlen]

/-- The terminal consumer always reads the oldest in-flight value. -/
lemma popLast_inFlight {α : Type} :
    ∀ (fs : List (α → α)) (cs cs' : List (List α)) (x : α),
      cs.length = fs.length + 1 → popLast cs = some (x, cs') →
      inFlightPipe fs cs = x :: inFlightPipe fs cs' ∧ cs'.length = fs.length + 1 := by
  intro fs
  induction fs with
  | nil =>
    intro cs cs' x hlen h
    cases cs with
    | nil => simp at hlen
    | cons c cs₁ =>
      cases cs₁ with
      | nil =>
        cases c with
        | nil => simp [popLast] at h
        | cons y c' =>
          simp only [popLast, Option.some.injEq, Prod.mk.injEq] at h
          obtain ⟨rfl, rfl⟩ := h
          exact ⟨rfl, rfl⟩
      | cons c2 cs₂ => simp at hlen
  | cons f fs ih =>
    intro cs cs' x hlen h
    cases cs with
    | nil => simp at hlen
    | cons c cs₁ =>
      cases cs₁ with
      | nil => simp at hlen
      | cons c2 cs₂ =>
        simp only [popLast] at h
        cases ht : popLast (c2 :: cs₂) with
        | none => rw [ht] at h; cases h
        | some r =>
          rw [ht] at h
          obtain ⟨y, r'⟩ := r
          simp only [Option.map_some', Option.some.injEq, Prod.mk.injEq] at h
          obtain ⟨rfl, rfl⟩ := h
          have hlen₁ : (c2 :: cs₂).length = fs.length + 1 := by
            simpa using hlen
          obtain ⟨hif, hlen'⟩ := ih (c2 :: cs₂) r' y hlen₁ ht
          constructor
          · simp only [inFlightPipe, hif, List.cons_append]
          · simp [hlen']

/-- Feeding an input preserves the pipeline invariant. -/
lemma feedOne_inv {α : Type} (cap : Nat) (fs : List (α → α)) (inputs0 : List α)
    (s : PipeState α) (h : pipeInv fs inputs0 s) : pipeInv fs inputs0 (feedOne cap s) := by
  obtain ⟨pending, chans, output⟩ := s
  obtain ⟨heq, hlen⟩ := h
  cases pending with
  | nil => exact ⟨heq, hlen⟩
  | cons x r =>
    cases chans with
    | nil => exact ⟨heq, hlen⟩
    | cons c cs =>
      have heq' : output ++ inFlightPipe fs (c :: cs)
          ++ List.map (compose fs) (x :: r) = List.map (compose fs) inputs0 := heq
      have hlen' : (c :: cs).length = fs.length + 1 := hlen
      by_cases hcap : c.length < cap
      · have hf : feedOne cap ⟨x :: r, c :: cs, output⟩
            = (⟨r, (c ++ [x]) :: cs, output⟩ : PipeState α) := by
          simp only [feedOne, if_pos hcap]
        rw [hf]
        refine ⟨?_, by simpa using hlen'⟩
        show output ++ inFlightPipe fs ((c ++ [x]) :: cs)
            ++ List.map (compose fs) r = List.map (compose fs) inputs0
        rw [inFlightPipe_feed]
        simp only [List.map_cons] at heq'
        rw [← heq']
        simp [List.append_assoc]
      · have hf : feedOne cap ⟨x :: r, c :: cs, output⟩
            = (⟨x :: r, c :: cs, output⟩ : PipeState α) := by
          simp only [feedOne, if_neg hcap]
        rw [hf]
        exact ⟨heq', hlen'⟩

/-- Any pipeline step, by any entity, preserves the invariant. -/
lemma pipeStep_inv {α : Type} (cap : Nat) (fs : List (α → α)) (inputs0 : List α)
    (s : PipeState α) (e : Nat) (h : pipeInv fs inputs0 s) :
    pipeInv fs inputs0 (pipeStep cap fs s e) := by
  obtain ⟨heq, hlen⟩ := h
  unfold pipeStep
  by_cases he0 : e = 0
  · rw [if_pos he0]
    exact feedOne_inv cap fs inputs0 s ⟨heq, hlen⟩
  · rw [if_neg he0]
    by_cases hes : e ≤ fs.length
    · rw [if_pos hes]
      cases hm : stageMove cap fs s.chans (e - 1) with
      | none => exact ⟨heq, hlen⟩
      | some cs' =>
        obtain ⟨hif, hl⟩ := stageMove_inFlight cap fs s.chans cs' (e - 1) hm
        exact ⟨by rw [hif]; exact heq, by rw [hl]; exact hlen⟩
    · rw [if_neg hes]
      cases hm : popLast s.chans with
      | none => exact ⟨heq, hlen⟩
      | some r =>
        obtain ⟨x, cs'⟩ := r
        obtain ⟨hif, hl⟩ := popLast_inFlight fs s.chans cs' x hlen hm
        refine ⟨?_, hl⟩
        rw [← heq, hif]
        simp

/-- Any schedule preserves the pipeline invariant. -/
lemma runPipe_inv {α : Type} (cap : Nat) (fs : List (α → α)) (inputs0 : List α)
    (σ : List Nat) (s : PipeState α) (h : pipeInv fs inputs0 s) :
    pipeInv fs inputs0 (runPipe cap fs σ s) := by
  induction σ generalizing s with
  | nil => exact h
  | cons e σ ih => exact ih (pipeStep cap fs s e) (pipeStep_inv cap fs inputs0 s e h)

/-- The initial pipeline state satisfies the invariant. -/
lemma initPipe_inv {α : Type} (fs : List (α → α)) (inputs : List α) :
    pipeInv fs inputs (initPipe fs inputs) := by
  refine ⟨?_, by simp [initPipe]⟩
  simp only [initPipe, inFlightPipe_replicate, List.nil_append]

/-- C7: for every linear chain of pure transform stages composed with
unbuffered channels (capacity 1), under any schedule after which the inputs
are exhausted and every channel has drained, the concurrent pipeline's
output equals the sequential composition of the stage functions applied to
the input sequence — the same elements in the same relative order. -/
theorem runPipeline_order_refines_sequential {α : Type} (fs : List (α → α))
    (inputs : List α) (σ : List Nat)
    (hpend : (runPipe 1 fs σ (initPipe fs inputs)).pending = [])
    (hdrain : allDrained (runPipe 1 fs σ (initPipe fs inputs)).chans = true) :
    (runPipe 1 fs σ (initPipe fs inputs)).output = seqPipeline fs inputs := by
  obtain ⟨heq, -⟩ := runPipe_inv 1 fs inputs σ (initPipe fs inputs) (initPipe_inv fs inputs)
  rw [hpend, inFlightPipe_drained fs _ hdrain] at heq
  simpa [seqPipeline] using heq

/-- Witness for C7: the two-stage chain x+1 then x*2 over inputs [1, 2, 3]
under a round-trip schedule yields [4, 6, 8], the sequential image. -/
theorem runPipeline_order_refines_sequential_witness :
    (runPipe 1 [fun x => x + 1, fun x => x * 2] [0, 1, 2, 3, 0, 1, 2, 3, 0, 1, 2, 3]
        (initPipe [fun x => x + 1, fun x => x * 2] ([1, 2, 3] : List Nat))).output
      = seqPipeline [fun x => x + 1, fun x => x * 2] ([1, 2, 3] : List Nat) :=
  runPipeline_order_refines_sequential [fun x => x + 1, fun x => x * 2] [1, 2, 3]
    [0, 1, 2, 3, 0, 1, 2, 3, 0, 1, 2, 3] (by decide) (by decide)

/-! ## Claims about the DTO and handler source -/

/-- C8: `UpdateBookRequest.Validate` returns no error when all four
optional fields are nil, the update map `UpdateBook` builds from such a
request is empty, and applying it leaves every field of the book
unchanged. -/
theorem updateBook_empty_body_noop (r : UpdateBookRequest)
    (ht : r.title = none) (ha : r.author = none) (hy : r.year = none)
    (hi : r.isbn = none) :
    r.validate = none ∧ updateData r = []
    ∧ ∀ b : Book, applyUpdateBook b r = b := by
  obtain ⟨t, a, y, i⟩ := r
  have ht' : t = none := ht
  have ha' : a = none := ha
  have hy' : y = none := hy
  have hi' : i = none := hi
  subst ht' ha' hy' hi'
  exact ⟨rfl, rfl, fun b => rfl⟩

/-- Witness for C8: the all-nil request on a concrete book. -/
theorem updateBook_empty_body_noop_witness :
    (UpdateBookRequest.mk none none none none).validate = none
    ∧ applyUpdateBook (Book.mk "The Go Programming Language" "Alan Donovan" 2015 "978")
        (UpdateBookRequest.mk none none none none)
      = Book.mk "The Go Programming Language" "Alan Donovan" 2015 "978" :=
  ⟨(updateBook_empty_body_noop ⟨none, none, none, none⟩ rfl rfl rfl rfl).1,
    (updateBook_empty_body_noop ⟨none, none, none, none⟩ rfl rfl rfl rfl).2.2
      (Book.mk "The Go Programming Language" "Alan Donovan" 2015 "978")⟩

/-- C9: `ChangePasswordRequest.Validate` returns an error if and only if
the old password is empty, the new password is empty, the new password is
shorter than 6 or longer than 255 bytes, or the new password equals the
old password. -/
theorem changePassword_validate_iff (r : ChangePasswordRequest) :
    (r.validate).isSome = true ↔
      (r.oldPassword = "" ∨ r.newPassword = "" ∨ goLen r.newPassword < 6
        ∨ goLen r.newPassword > 255 ∨ r.newPassword = r.oldPassword) := by
  unfold ChangePasswordRequest.validate
  split_ifs with h1 h2 h3 h4 h5 <;> simp_all [eq_comm]

/-- Witness for C9: a new password equal to the old one fails validation
even though both individually satisfy all the length rules. -/
theorem changePassword_validate_iff_witness :
    ((ChangePasswordRequest.mk "secret99" "secret99").validate).isSome = true :=
  (changePassword_validate_iff ⟨"secret99", "secret99"⟩).mpr
    (Or.inr (Or.inr (Or.inr (Or.inr rfl))))

/-- C10: `GetBooks` normalizes pagination before calling the service: a
parsed page value below 1 is replaced by 1 (a syntactically unparseable
string parses to 0, hence is replaced by 1), a limit outside [1, 100] is
replaced by 10, and the page and limit actually used always satisfy
page ≥ 1 and 1 ≤ limit ≤ 100. -/
theorem getBooks_pagination_normalized (pageQ limitQ : Option String) :
    (goAtoi (pageQ.getD "1") < 1 → (getBooksParams pageQ limitQ).1 = 1)
    ∧ ((goAtoi (limitQ.getD "10") < 1 ∨ goAtoi (limitQ.getD "10") > 100)
        → (getBooksParams pageQ limitQ).2 = 10)
    ∧ (∀ s : String, atoiSyntaxOk s = false → goAtoi s = 0)
    ∧ 1 ≤ (getBooksParams pageQ limitQ).1
    ∧ 1 ≤ (getBooksParams pageQ limitQ).2
    ∧ (getBooksParams pageQ limitQ).2 ≤ 100 := by
  refine ⟨?_, ?_, ?_, ?_, ?_, ?_⟩
  · intro h
    simp only [getBooksParams]
    rw [if_pos h]
  · intro h
    simp only [getBooksParams]
    rw [if_pos h]
  · intro s hs
    simp [goAtoi, hs]
  · simp only [getBooksParams]
    split_ifs <;> omega
  · simp only [getBooksParams]
    split_ifs <;> omega
  · simp only [getBooksParams]
    split_ifs <;> omega

/-- Witness for C10: an unparseable page and an oversized limit are
normalized to page 1 and limit 10. -/
theorem getBooks_pagination_normalized_witness :
    (getBooksParams (some "abc") (some "1000")).1 = 1
    ∧ (getBooksParams (some "abc") (some "1000")).2 = 10 :=
  ⟨(getBooks_pagination_normalized (some "abc") (some "1000")).1 (by decide),
    (getBooks_pagination_normalized (some "abc") (some "1000")).2.1 (Or.inr (by decide))⟩

end GoFiber
